import Mathlib

/-!
Shallow embedding of `carve` (src/main.rs), an interactive terminal pager:
a line buffer fed by stdin, a mode state machine (Normal / Search / Filter),
substring search with match highlighting, substring filtering, scroll
arithmetic, the frame (span) builder of the draw closure, and the exit
re-emission of filtered lines.

Lines are modelled as `List Char`; byte offsets of the Rust code become
positions in the character list (the examples are ASCII, where the two
coincide).  The `Arc<Mutex<Vec<String>>>` line store is modelled as a plain
`List (List Char)` field: locks are assumed to succeed, as the spec's
concurrency model prescribes for the single-reader/single-writer pair.
-/

namespace Carve

/-- Convert a string literal to the `List Char` line representation. -/
def toL (s : String) : List Char := s.toList

/-- The `enum Mode` of src/main.rs. -/
inductive Mode
  | Normal
  | Search
  | Filter
deriving DecidableEq, Repr

/-- The `struct App` of src/main.rs.  `lines` is the store behind the mutex. -/
structure App where
  lines : List (List Char)
  scroll : Nat
  mode : Mode
  tailing : Bool
  filter : List Char
  search_query : List Char
  current_match : Nat
  «matches» : List (Nat × Nat × Nat)
deriving DecidableEq, Repr

/-- Model of `App::new`. -/
def App.new : App :=
  { lines := []
    scroll := 0
    mode := Mode.Normal
    search_query := []
    current_match := 0
    «matches» := []
    tailing := true
    filter := [] }

/-- Model of `App::scroll_to`: unclamped absolute assignment. -/
def App.scroll_to (a : App) (position : Nat) : App :=
  { a with scroll := position }

/-- Model of `App::scroll_up`: `saturating_sub` is truncated `Nat` subtraction. -/
def App.scroll_up (a : App) (amount : Nat) : App :=
  { a with scroll := a.scroll - amount }

/-- Model of `App::scroll_down`: clamped to `max_scroll` by `min`. -/
def App.scroll_down (a : App) (amount max_scroll : Nat) : App :=
  { a with scroll := min (a.scroll + amount) max_scroll }

/-- Model of `App::len`: length of the line store. -/
def App.len (a : App) : Nat := a.lines.length

/-- All positions (relative to `pos`) at which `q` occurs in `s`: the
candidate set scanned left to right by `str::match_indices`. -/
def occAux (q : List Char) : List Char → Nat → List Nat
  | [], _ => []
  | c :: rest, pos =>
    (if q.isPrefixOf (c :: rest) then [pos] else []) ++ occAux q rest (pos + 1)

/-- Greedy left-to-right selection of non-overlapping occurrences:
a candidate starting inside the previously selected occurrence
(`p < lastEnd`) is skipped, otherwise it is selected and the scan resumes
at its end.  This is the documented semantics of `str::match_indices`. -/
def nonOverlapSel (qlen : Nat) : List Nat → Nat → List Nat
  | [], _ => []
  | p :: ps, lastEnd =>
    if p < lastEnd then nonOverlapSel qlen ps lastEnd
    else p :: nonOverlapSel qlen ps (p + qlen)

/-- Model of `line.match_indices(&q)` (start positions only): leftmost
non-overlapping occurrences of `q` in `line`, ascending. -/
def matchIndices (q line : List Char) : List Nat :=
  nonOverlapSel q.length (occAux q line 0) 0

/-- The nested `for` loops of `App::update_search`, with `i` the index of
the first line: every occurrence of `q` in line `i + j` contributes a
triple `(i + j, start, start + q.length)`. -/
def computeMatchesGo (q : List Char) : Nat → List (List Char) → List (Nat × Nat × Nat)
  | _, [] => []
  | i, l :: ls =>
    (matchIndices q l).map (fun s => (i, s, s + q.length)) ++ computeMatchesGo q (i + 1) ls

/-- Match recomputation over the whole buffer (`lines.iter().enumerate()`
with the inner `match_indices` loop). -/
def computeMatches (lines : List (List Char)) (q : List Char) : List (Nat × Nat × Nat) :=
  computeMatchesGo q 0 lines

/-- Strict ordering between two match triples: strictly earlier line, or
the same line with the first match ending at or before the second's start
— i.e. sorted by `(line_index, start_offset)` and non-overlapping within
a line. -/
def matchOrder (m1 m2 : Nat × Nat × Nat) : Prop :=
  m1.1 < m2.1 ∨ (m1.1 = m2.1 ∧ m1.2.2 ≤ m2.2.1)

/-- Model of `App::update_search`: empty query clears the match list; otherwise the
match list is fully recomputed from the current buffer.  `current_match`
is not touched. -/
def App.update_search (a : App) : App :=
  if a.search_query.isEmpty then { a with «matches» := [] }
  else { a with «matches» := computeMatches a.lines a.search_query }

/-- Model of `App::next_match`: cyclic advance, then jump `scroll` to the matched
line (the `get` is checked, as in the source). -/
def App.next_match (a : App) : App :=
  if a.«matches».isEmpty then a
  else
    let cur := (a.current_match + 1) % a.«matches».length
    match a.«matches»[cur]? with
    | some m => { a with current_match := cur, scroll := m.1, mode := Mode.Normal }
    | none => { a with current_match := cur }

/-- Model of `App::prev_match`: cyclic retreat (`checked_sub(1).unwrap_or(len-1)`),
then jump `scroll` to the matched line. -/
def App.prev_match (a : App) : App :=
  if a.«matches».isEmpty then a
  else
    let cur := if a.current_match = 0 then a.«matches».length - 1 else a.current_match - 1
    match a.«matches»[cur]? with
    | some m => { a with current_match := cur, scroll := m.1, mode := Mode.Normal }
    | none => { a with current_match := cur }

/-- Model of `line.contains(&filter)`: substring containment, scanning for a
position where the pattern is a prefix of the remaining text. -/
def strContains (hay pat : List Char) : Bool :=
  match hay with
  | [] => pat.isEmpty
  | _ :: t => pat.isPrefixOf hay || strContains t pat

/-- The filter predicate `app.filter == "" || line.contains(&app.filter)`,
written identically in the draw closure and in the exit re-emission. -/
def linePasses (filt line : List Char) : Bool :=
  filt.isEmpty || strContains line filt

/-- The filtered line sequence of the draw closure
(`lines.iter().filter(...)`). -/
def App.filteredLines (a : App) : List (List Char) :=
  a.lines.filter (fun l => linePasses a.filter l)

/-- The exit re-emission: after the loop breaks, every stored line passing
the active filter is printed, one per output line, in order. -/
def exitOutput (a : App) : List (List Char) :=
  a.lines.filter (fun l => linePasses a.filter l)

/-- The key events the dispatcher distinguishes (`crossterm` `KeyCode`). -/
inductive KeyCode
  | Char (c : Char)
  | Esc
  | Enter
  | Backspace
deriving DecidableEq, Repr

/-- The `match (app.mode, key.code)` dispatcher of the main loop.
`none` models `break` (the quit key).  Arm order and the `if` guards
mirror the source; unmatched pairs fall to the final wildcard no-op. -/
def handleKey (view_height : Nat) (a : App) (k : KeyCode) : Option App :=
  match a.mode, k with
  | Mode.Normal, KeyCode.Char c =>
    if c = 'q' then none
    else if c = 'n' then some (if a.«matches».isEmpty then a else a.next_match)
    else if c = 'N' then some (if a.«matches».isEmpty then a else a.prev_match)
    else if c = 'j' then
      some { (if a.len > view_height then a.scroll_down 1 (a.len - view_height) else a)
               with tailing := false }
    else if c = 'k' then
      some { (if a.len > view_height then a.scroll_up 1 else a) with tailing := false }
    else if c = 'd' then
      some { (if a.len > view_height then a.scroll_down (view_height / 2) (a.len - view_height)
              else a) with tailing := false }
    else if c = 'u' then
      some { (if a.len > view_height then a.scroll_up (view_height / 2) else a)
               with tailing := false }
    else if c = 'g' then some { a.scroll_to 0 with tailing := false }
    else if c = 'G' then some { a.scroll_to (a.len - view_height) with tailing := true }
    else if c = 'f' then
      some { App.update_search { a with search_query := [] } with mode := Mode.Search }
    else if c = '/' then some { a with filter := [], mode := Mode.Filter }
    else some a
  | _, KeyCode.Esc => some { a with mode := Mode.Normal }
  | Mode.Search, KeyCode.Char c =>
    some (App.update_search { a with search_query := a.search_query ++ [c] })
  | Mode.Search, KeyCode.Backspace =>
    some (App.update_search { a with search_query := a.search_query.dropLast })
  | Mode.Search, KeyCode.Enter =>
    let a' :=
      if a.«matches».isEmpty then a
      else
        match a.«matches»[a.current_match]? with
        | some m => { a with scroll := m.1 }
        | none => a
    some { a' with search_query := [], mode := Mode.Normal }
  | Mode.Filter, KeyCode.Char c => some { a with filter := a.filter ++ [c] }
  | Mode.Filter, KeyCode.Backspace => some { a with filter := a.filter.dropLast }
  | Mode.Filter, KeyCode.Enter => some { a with mode := Mode.Normal }
  | _, _ => some a

/-- One iteration of the main loop: the draw closure mutates nothing, so
the state only changes when the poll yields a key event (`none` models a
poll timeout). -/
def loopStep (view_height : Nat) (a : App) (ev : Option KeyCode) : Option App :=
  match ev with
  | none => some a
  | some k => handleKey view_height a k

/-- Run the main loop over a list of poll outcomes; `none` as a result
means the quit key broke the loop. -/
def runEvents (view_height : Nat) (a : App) : List (Option KeyCode) → Option App
  | [] => some a
  | ev :: evs =>
    match loopStep view_height a ev with
    | none => none
    | some a' => runEvents view_height a' evs

/-- One rendered span of the draw closure: its text, whether it carries a
match highlight style, and whether that style is the current-match one. -/
structure Span where
  text : List Char
  highlighted : Bool
  is_current : Bool
deriving DecidableEq, Repr

/-- A rendered row: either the blank placeholder `ListItem` for positions
outside the scroll window, or the span decomposition of the line. -/
inductive Row
  | blank
  | content (spans : List Span)
deriving DecidableEq, Repr

/-- The slice `line[s..e]` as a total function on the character list. -/
def slice (line : List Char) (s e : Nat) : List Char :=
  (line.drop s).take (e - s)

/-- One step of the span-building loop: emit the unmatched gap before the
match (if any) and then the matched text, highlighted, current iff the
match's index in the full match list equals `current_match`. -/
def spanStep (line : List Char) (cur : Nat) (acc : List Span × Nat)
    (m : Nat × Nat × Nat × Nat) : List Span × Nat :=
  let spans := acc.1
  let last_end := acc.2
  let spans :=
    if last_end < m.2.2.1 then spans ++ [⟨slice line last_end m.2.2.1, false, false⟩]
    else spans
  let spans := spans ++ [⟨slice line m.2.2.1 m.2.2.2, true, m.1 == cur⟩]
  (spans, m.2.2.2)

/-- The per-row body of the draw closure: blank outside the window;
otherwise the spans built from this row's matches — selected, as in the
source, by comparing the match's (absolute) line index with the row's
position `idx` in the filtered sequence — plus the trailing unmatched
text, or the whole plain line when no match was selected. -/
def renderRow (a : App) (view_height idx : Nat) (line : List Char) : Row :=
  if idx < a.scroll ∨ a.scroll + view_height ≤ idx then Row.blank
  else
    let lineMatches := a.«matches».enum.filter (fun p => p.2.1 == idx)
    let res := lineMatches.foldl (spanStep line a.current_match) ([], 0)
    let spans :=
      if res.2 < line.length then res.1 ++ [⟨line.drop res.2, false, false⟩] else res.1
    let spans := if spans.isEmpty then [⟨line, false, false⟩] else spans
    Row.content spans

/-- All rows the draw closure builds: the filtered lines, enumerated in
filtered positions. -/
def renderRows (a : App) (view_height : Nat) : List Row :=
  a.filteredLines.enum.map (fun p => renderRow a view_height p.1 p.2)

/-- The text of a row (spans concatenated; blank rows are empty). -/
def rowText : Row → List Char
  | Row.blank => []
  | Row.content spans => (spans.map Span.text).flatten

/-- The texts the widget displays: rows from offset `scroll`, one screen
worth. -/
def frameTexts (a : App) (view_height : Nat) : List (List Char) :=
  (((renderRows a view_height).drop a.scroll).take view_height).map rowText

/-! ### Helper lemmas on the navigation operations -/

lemma next_match_matches (a : App) : (a.next_match).«matches» = a.«matches» := by
  unfold App.next_match
  by_cases h : a.«matches».isEmpty
  · simp [h]
  · simp only [h, Bool.false_eq_true, if_false]
    cases hg : a.«matches»[(a.current_match + 1) % a.«matches».length]? <;> simp [hg]

lemma next_match_current (a : App) (h : a.«matches» ≠ []) :
    (a.next_match).current_match = (a.current_match + 1) % a.«matches».length := by
  unfold App.next_match
  rw [if_neg (by simpa using h)]
  cases hg : a.«matches»[(a.current_match + 1) % a.«matches».length]? <;> simp [hg]

lemma prev_match_matches (a : App) : (a.prev_match).«matches» = a.«matches» := by
  unfold App.prev_match
  by_cases h : a.«matches».isEmpty
  · simp [h]
  · simp only [h, Bool.false_eq_true, if_false]
    cases hg : a.«matches»[if a.current_match = 0 then a.«matches».length - 1
        else a.current_match - 1]? <;> simp [hg]

lemma prev_match_current (a : App) (h : a.«matches» ≠ []) :
    (a.prev_match).current_match =
      if a.current_match = 0 then a.«matches».length - 1 else a.current_match - 1 := by
  unfold App.prev_match
  rw [if_neg (by simpa using h)]
  cases hg : a.«matches»[if a.current_match = 0 then a.«matches».length - 1
      else a.current_match - 1]? <;> simp [hg]

/-! ### C10: Filter-mode keys touch only the filter string -/

/-- C10: in Filter mode a character key only appends that character to the
filter string, and backspace only drops the filter's last character (a
no-op on the empty string); scroll, mode, tailing, query, match list and
match cursor are all unchanged. -/
theorem filter_mode_keys (a : App) (view_height : Nat) (c : Char)
    (h : a.mode = Mode.Filter) :
    handleKey view_height a (KeyCode.Char c) = some { a with filter := a.filter ++ [c] } ∧
    handleKey view_height a KeyCode.Backspace = some { a with filter := a.filter.dropLast } := by
  constructor <;> (unfold handleKey; rw [h])

/-- Witness for C10 at a concrete Filter-mode state. -/
theorem filter_mode_keys_witness :
    handleKey 3 { App.new with mode := Mode.Filter } (KeyCode.Char 'x') =
      some { App.new with
        mode := Mode.Filter
        filter := [] ++ ['x'] } ∧
    handleKey 3 { App.new with mode := Mode.Filter } KeyCode.Backspace =
      some { App.new with
        mode := Mode.Filter
        filter := List.dropLast [] } :=
  filter_mode_keys { App.new with mode := Mode.Filter } 3 'x' rfl

/-! ### C6: the search-entry key -/

/-- C6 counterexample: with lines `["aa","a"]`, the key sequence
`f`, `a`, Enter, `n` reaches Normal mode with match cursor 1; the next
`f` (the Normal-to-Search transition) leaves the state with query and
match list cleared but match cursor still 1 — not the 0 the claim
requires. -/
theorem search_entry_cursor_cex :
    Option.map (fun a => (a.mode, a.search_query, a.«matches», a.current_match))
        (runEvents 5 { App.new with lines := [toL "aa", toL "a"] }
          [some (KeyCode.Char 'f'), some (KeyCode.Char 'a'), some KeyCode.Enter,
           some (KeyCode.Char 'n'), some (KeyCode.Char 'f')]) =
      some (Mode.Search, [], [], 1) ∧ (1 : Nat) ≠ 0 := by
  exact ⟨rfl, by decide⟩

/-- C6 amended: the Normal-to-Search transition (`f`) clears the query
string and the match list and enters Search mode, but leaves the match
cursor unchanged (the source never resets `current_match`). -/
theorem search_entry_key (a : App) (view_height : Nat) (h : a.mode = Mode.Normal) :
    handleKey view_height a (KeyCode.Char 'f') =
      some { a with
        search_query := []
        «matches» := []
        mode := Mode.Search } := by
  unfold handleKey
  rw [h]
  simp only [reduceIte, Char.reduceEq, App.update_search, List.isEmpty_nil, if_true]

/-- Witness for the amended C6 at a concrete state with a nonzero cursor. -/
theorem search_entry_key_witness :
    handleKey 3 { App.new with current_match := 7 } (KeyCode.Char 'f') =
      some { App.new with
        current_match := 7
        search_query := []
        «matches» := []
        mode := Mode.Search } :=
  search_entry_key { App.new with current_match := 7 } 3 rfl

/-! ### C2: the scroll clamping invariant -/

/-- C2 counterexample: with lines `["b","x"]`, no filter (filtered count
2) and viewport height 5, `next_match` after searching `"x"` sets
`scroll` to the matched line index 1, which exceeds
`max 0 (filtered_count − viewport_height) = max 0 (2 − 5) = 0`. -/
theorem scroll_invariant_cex :
    ((({ App.new with
          lines := [toL "b", toL "x"]
          search_query := toL "x" } : App).update_search).next_match).scroll = 1 ∧
    ((({ App.new with
          lines := [toL "b", toL "x"]
          search_query := toL "x" } : App).update_search).next_match).filteredLines.length = 2 ∧
    ¬ (1 : Nat) ≤ max 0 (2 - 5) := by
  exact ⟨rfl, rfl, by decide⟩

/-- C2 amended: only `scroll_up` and `scroll_down` keep `scroll` within
`[0, max(0, total_line_count − viewport_height)]` — with the bound taken
from the unfiltered line count, as at every call site, and only when
`scroll` was in range before (the lower bound 0 is inherent to `Nat`);
`scroll_to`, `next_match`, `prev_match` and the search accept assign line
positions without clamping to this range. -/
theorem scroll_up_down_clamped (a : App) (amount view_height : Nat)
    (h : a.scroll ≤ a.len - view_height) :
    (a.scroll_down amount (a.len - view_height)).scroll ≤ a.len - view_height ∧
    (a.scroll_up amount).scroll ≤ a.len - view_height := by
  constructor
  · simp [App.scroll_down]
  · simp only [App.scroll_up]
    omega

/-- Witness for the amended C2 at a concrete state. -/
theorem scroll_up_down_clamped_witness :
    (App.new.scroll_down 3 (App.new.len - 1)).scroll ≤ App.new.len - 1 ∧
    (App.new.scroll_up 3).scroll ≤ App.new.len - 1 :=
  scroll_up_down_clamped App.new 3 1 (by decide)

/-! ### C3: movement keys and the filtered line count -/

/-- C3 counterexample: lines `["aa","bb","cc"]` with filter `"b"` leave a
single filtered line, not exceeding the viewport height 2, yet the
line-down key still moves `scroll` from 0 to 1, because its handler
guards on the unfiltered count 3 > 2.  The claim says the key must be a
no-op here. -/
theorem movement_filtered_cex :
    ({ App.new with
        lines := [toL "aa", toL "bb", toL "cc"]
        filter := toL "b" } : App).filteredLines.length ≤ 2 ∧
    Option.map App.scroll
        (handleKey 2 { App.new with
          lines := [toL "aa", toL "bb", toL "cc"]
          filter := toL "b" } (KeyCode.Char 'j')) = some 1 ∧
    ({ App.new with
        lines := [toL "aa", toL "bb", toL "cc"]
        filter := toL "b" } : App).scroll = 0 := by
  exact ⟨by decide, rfl, rfl⟩

/-- C3 amended: every movement key computes its extent from the total,
unfiltered line count.  When that total does not exceed the viewport
height, line-down, line-up, half-page-down and half-page-up leave
`scroll` unchanged (they only clear `tailing`), while jump-top and
jump-bottom assign `scroll` unconditionally: 0, respectively the
saturating difference `total − viewport_height` (0 in this case). -/
theorem movement_keys_total (a : App) (view_height : Nat)
    (h : a.mode = Mode.Normal) (hle : a.len ≤ view_height) :
    handleKey view_height a (KeyCode.Char 'j') = some { a with tailing := false } ∧
    handleKey view_height a (KeyCode.Char 'k') = some { a with tailing := false } ∧
    handleKey view_height a (KeyCode.Char 'd') = some { a with tailing := false } ∧
    handleKey view_height a (KeyCode.Char 'u') = some { a with tailing := false } ∧
    handleKey view_height a (KeyCode.Char 'g') =
      some { a with scroll := 0, tailing := false } ∧
    handleKey view_height a (KeyCode.Char 'G') =
      some { a with scroll := a.len - view_height, tailing := true } := by
  have hnot : ¬ view_height < a.len := by omega
  refine ⟨?_, ?_, ?_, ?_, ?_, ?_⟩ <;>
  · unfold handleKey
    simp only [h, reduceIte, Char.reduceEq, gt_iff_lt, if_neg hnot, App.scroll_to]

/-- Witness for the amended C3 at a concrete one-line state. -/
theorem movement_keys_total_witness :
    handleKey 2 { App.new with lines := [toL "a"] } (KeyCode.Char 'j') =
      some { { App.new with lines := [toL "a"] } with tailing := false } ∧
    handleKey 2 { App.new with lines := [toL "a"] } (KeyCode.Char 'k') =
      some { { App.new with lines := [toL "a"] } with tailing := false } ∧
    handleKey 2 { App.new with lines := [toL "a"] } (KeyCode.Char 'd') =
      some { { App.new with lines := [toL "a"] } with tailing := false } ∧
    handleKey 2 { App.new with lines := [toL "a"] } (KeyCode.Char 'u') =
      some { { App.new with lines := [toL "a"] } with tailing := false } ∧
    handleKey 2 { App.new with lines := [toL "a"] } (KeyCode.Char 'g') =
      some { { App.new with lines := [toL "a"] } with scroll := 0, tailing := false } ∧
    handleKey 2 { App.new with lines := [toL "a"] } (KeyCode.Char 'G') =
      some { { App.new with lines := [toL "a"] } with
        scroll := ({ App.new with lines := [toL "a"] } : App).len - 2
        tailing := true } :=
  movement_keys_total { App.new with lines := [toL "a"] } 2 rfl (by decide)

/-! ### C5: validity of the match cursor -/

/-- C5 counterexample: with lines `["aa","a"]`, searching `"a"`, accepting,
pressing `n` twice (cursor 2), re-entering search and typing `"aa"`
shrinks the match list to one element while the cursor stays 2: the match
list is non-empty but `current_match = 2` is not a valid index into it. -/
theorem match_cursor_stale_cex :
    Option.map (fun a => (a.«matches», a.current_match))
        (runEvents 5 { App.new with lines := [toL "aa", toL "a"] }
          [some (KeyCode.Char 'f'), some (KeyCode.Char 'a'), some KeyCode.Enter,
           some (KeyCode.Char 'n'), some (KeyCode.Char 'n'),
           some (KeyCode.Char 'f'), some (KeyCode.Char 'a'), some (KeyCode.Char 'a')]) =
      some ([(0, 0, 2)], 2) ∧
    ¬ (2 : Nat) < List.length [((0 : Nat), (0 : Nat), (2 : Nat))] := by
  exact ⟨rfl, by decide⟩

/-- C5 amended: `next_match` always restores `current_match` to a valid
index of the (unchanged) non-empty match list, and `prev_match` does so
whenever the cursor was at most the list length; but search recomputation
never resets `current_match`, so a recomputation that shrinks the match
list can leave `current_match ≥ matches.length` (all later accesses go
through checked lookups). -/
theorem match_cursor_after_nav (a : App) (h : a.«matches» ≠ []) :
    (a.next_match).current_match < (a.next_match).«matches».length ∧
    (a.current_match ≤ a.«matches».length →
      (a.prev_match).current_match < (a.prev_match).«matches».length) := by
  have hlen : 0 < a.«matches».length := List.length_pos.mpr h
  constructor
  · rw [next_match_matches, next_match_current a h]
    exact Nat.mod_lt _ hlen
  · intro hc
    rw [prev_match_matches, prev_match_current a h]
    by_cases h0 : a.current_match = 0
    · rw [if_pos h0]
      omega
    · rw [if_neg h0]
      omega

/-- Witness for the amended C5 at a concrete searched state. -/
theorem match_cursor_after_nav_witness :
    ((({ App.new with
          lines := [toL "b", toL "x"]
          search_query := toL "x" } : App).update_search).next_match).current_match <
      ((({ App.new with
          lines := [toL "b", toL "x"]
          search_query := toL "x" } : App).update_search).next_match).«matches».length ∧
    ((({ App.new with
          lines := [toL "b", toL "x"]
          search_query := toL "x" } : App).update_search).current_match ≤
        (({ App.new with
          lines := [toL "b", toL "x"]
          search_query := toL "x" } : App).update_search).«matches».length →
      ((({ App.new with
          lines := [toL "b", toL "x"]
          search_query := toL "x" } : App).update_search).prev_match).current_match <
      ((({ App.new with
          lines := [toL "b", toL "x"]
          search_query := toL "x" } : App).update_search).prev_match).«matches».length) :=
  match_cursor_after_nav
    (({ App.new with
        lines := [toL "b", toL "x"]
        search_query := toL "x" } : App).update_search) (by decide)

/-! ### C7: next/prev cyclic symmetry -/

/-- C7 counterexample: the match list `[(0,0,1)]` (from searching `"a"` in
the single line `"a"`) is non-empty, and the starting cursor value 1 is a
reachable stale cursor; `next_match` then `prev_match` from it ends at
cursor 0, not back at 1, so the round trip fails for this starting cursor
value. -/
theorem next_prev_roundtrip_cex :
    ({ ({ App.new with
          lines := [toL "a"]
          search_query := toL "a" } : App).update_search with
        current_match := 1 } : App).«matches» ≠ [] ∧
    ((({ ({ App.new with
          lines := [toL "a"]
          search_query := toL "a" } : App).update_search with
        current_match := 1 } : App).next_match).prev_match).current_match = 0 ∧
    (0 : Nat) ≠ 1 := by
  refine ⟨by decide, rfl, by decide⟩

/-- C7 amended: with a fixed non-empty match list and any starting cursor
value that is a valid index (strictly below the list length), `next_match`
then `prev_match` — and `prev_match` then `next_match` — return
`current_match` to its original value, wrapping cyclically at the ends. -/
theorem next_prev_match_roundtrip (a : App) (h : a.«matches» ≠ [])
    (hc : a.current_match < a.«matches».length) :
    ((a.next_match).prev_match).current_match = a.current_match ∧
    ((a.prev_match).next_match).current_match = a.current_match := by
  have hlen : 0 < a.«matches».length := List.length_pos.mpr h
  have hne : (a.next_match).«matches» ≠ [] := by
    rw [next_match_matches]
    exact h
  have hpe : (a.prev_match).«matches» ≠ [] := by
    rw [prev_match_matches]
    exact h
  constructor
  · rw [prev_match_current _ hne, next_match_current a h, next_match_matches]
    rcases Nat.lt_or_ge (a.current_match + 1) a.«matches».length with hlt | hge
    · rw [Nat.mod_eq_of_lt hlt, if_neg (by omega)]
      omega
    · have hceq : a.current_match + 1 = a.«matches».length := by omega
      rw [hceq, Nat.mod_self, if_pos rfl]
      omega
  · rw [next_match_current _ hpe, prev_match_current a h, prev_match_matches]
    by_cases h0 : a.current_match = 0
    · rw [if_pos h0, h0]
      have hs : a.«matches».length - 1 + 1 = a.«matches».length := by omega
      rw [hs, Nat.mod_self]
    · rw [if_neg h0]
      have hs : a.current_match - 1 + 1 = a.current_match := by omega
      rw [hs, Nat.mod_eq_of_lt hc]

/-- Witness for the amended C7 at a concrete searched state (cursor 0,
one match). -/
theorem next_prev_match_roundtrip_witness :
    (((({ App.new with
          lines := [toL "a"]
          search_query := toL "a" } : App).update_search).next_match).prev_match).current_match =
      (({ App.new with
          lines := [toL "a"]
          search_query := toL "a" } : App).update_search).current_match ∧
    (((({ App.new with
          lines := [toL "a"]
          search_query := toL "a" } : App).update_search).prev_match).next_match).current_match =
      (({ App.new with
          lines := [toL "a"]
          search_query := toL "a" } : App).update_search).current_match :=
  next_prev_match_roundtrip
    (({ App.new with
        lines := [toL "a"]
        search_query := toL "a" } : App).update_search) (by decide) (by decide)

/-! ### C1: tailing does not auto-scroll -/

/-- C1 (refuting evaluation): with lines `"a","bb","ccc"` ingested,
viewport height 2 and no operator input, the state — tailing from
startup — is unchanged by every loop iteration (the loop body never reads
`tailing` and never recomputes `scroll`), and the rendered frame shows
the first two lines `"a","bb"`, not the last two `"bb","ccc"` the claim
requires. -/
theorem tailing_frame_first_lines :
    (∀ n, runEvents 2 { App.new with lines := [toL "a", toL "bb", toL "ccc"] }
        (List.replicate n none) =
      some { App.new with lines := [toL "a", toL "bb", toL "ccc"] }) ∧
    ({ App.new with lines := [toL "a", toL "bb", toL "ccc"] } : App).tailing = true ∧
    frameTexts { App.new with lines := [toL "a", toL "bb", toL "ccc"] } 2 =
      [toL "a", toL "bb"] ∧
    [toL "a", toL "bb"] ≠ [toL "bb", toL "ccc"] := by
  refine ⟨?_, rfl, rfl, by decide⟩
  intro n
  induction n with
  | zero => rfl
  | succ n ih => exact ih

/-! ### C8: span construction -/

/-- C8 (refuting evaluation): set the filter to `"a"` over lines
`["xx","a"]`, then search `"x"`.  The draw closure compares each match's
absolute line index (0, the line `"xx"`) with the row's position in the
filtered sequence (0, the line `"a"`), so the single visible row `"a"` is
rendered with a highlighted span `"a"` — which is not an occurrence of
the query `"x"` in that line (the query does not occur in `"a"` at all) —
plus a second highlighted span from the out-of-range byte slice `[1,2)`
of the one-byte line (an out-of-bounds panic in the Rust original). -/
theorem highlight_wrong_line :
    Option.map (fun a => (a.filter, a.search_query, renderRows a 5))
        (runEvents 5 { App.new with lines := [toL "xx", toL "a"] }
          [some (KeyCode.Char '/'), some (KeyCode.Char 'a'), some KeyCode.Enter,
           some (KeyCode.Char 'f'), some (KeyCode.Char 'x')]) =
      some (toL "a", toL "x",
        [Row.content [⟨toL "a", true, true⟩, ⟨[], true, false⟩]]) ∧
    strContains (toL "a") (toL "x") = false := by
  exact ⟨rfl, by decide⟩

/-! ### C9: exit re-emission -/

lemma isPrefixOf_eq_true (l₁ l₂ : List Char) :
    l₁.isPrefixOf l₂ = true ↔ l₁ <+: l₂ := List.isPrefixOf_iff_prefix

lemma strContains_eq_true (hay pat : List Char) :
    strContains hay pat = true ↔ pat <:+: hay := by
  induction hay with
  | nil => simp [strContains, List.isEmpty_iff, List.infix_nil]
  | cons c t ih =>
    simp only [strContains, Bool.or_eq_true, isPrefixOf_eq_true, ih, List.infix_cons_iff]

lemma linePasses_eq_true (filt l : List Char) :
    linePasses filt l = true ↔ (filt = [] ∨ filt <:+: l) := by
  simp [linePasses, Bool.or_eq_true, List.isEmpty_iff, strContains_eq_true]

/-- C9: the exit re-emission writes exactly the stored lines satisfying
the active filter (empty filter, or filter an infix of the line), one per
output line, in original arrival order (a sublist of the store); with
filter `"a"` over `["cat","dog","bat"]` the output is exactly
`"cat","bat"`. -/
theorem exit_emission (a : App) :
    (exitOutput a).Sublist a.lines ∧
    (∀ l, l ∈ exitOutput a ↔ l ∈ a.lines ∧ (a.filter = [] ∨ a.filter <:+: l)) ∧
    exitOutput { App.new with
      lines := [toL "cat", toL "dog", toL "bat"]
      filter := toL "a" } = [toL "cat", toL "bat"] := by
  refine ⟨List.filter_sublist _, fun l => ?_, rfl⟩
  simp [exitOutput, List.mem_filter, linePasses_eq_true]

/-! ### C4: correctness of search recomputation -/

lemma mem_occAux (q : List Char) (hq : q ≠ []) (s : List Char) :
    ∀ (pos p : Nat),
      p ∈ occAux q s pos ↔ pos ≤ p ∧ q.isPrefixOf (List.drop (p - pos) s) = true := by
  induction s with
  | nil =>
    intro pos p
    constructor
    · intro h
      simp [occAux] at h
    · rintro ⟨-, hpre⟩
      exfalso
      cases q with
      | nil => exact hq rfl
      | cons x xs => simp [List.isPrefixOf] at hpre
  | cons c rest ih =>
    intro pos p
    have hsplit : p ∈ occAux q (c :: rest) pos ↔
        (q.isPrefixOf (c :: rest) = true ∧ p = pos) ∨ p ∈ occAux q rest (pos + 1) := by
      by_cases hpre : q.isPrefixOf (c :: rest) <;> simp [occAux, hpre]
    rw [hsplit, ih (pos + 1) p]
    constructor
    · rintro (⟨hpre, rfl⟩ | ⟨hle, hpre⟩)
      · simpa using hpre
      · refine ⟨by omega, ?_⟩
        have hd : p - pos = (p - (pos + 1)) + 1 := by omega
        rw [hd, List.drop_succ_cons]
        exact hpre
    · rintro ⟨hle, hpre⟩
      rcases Nat.eq_or_lt_of_le hle with heq | hlt
      · left
        subst heq
        simpa using hpre
      · right
        refine ⟨by omega, ?_⟩
        have hd : p - pos = (p - (pos + 1)) + 1 := by omega
        rw [hd, List.drop_succ_cons] at hpre
        exact hpre

lemma occAux_lb (q s : List Char) :
    ∀ pos, ∀ p ∈ occAux q s pos, pos ≤ p := by
  induction s with
  | nil =>
    intro pos p hp
    simp [occAux] at hp
  | cons c rest ih =>
    intro pos p hp
    simp only [occAux] at hp
    rcases List.mem_append.mp hp with h1 | h2
    · by_cases hpre : q.isPrefixOf (c :: rest) <;> simp [hpre] at h1
      omega
    · have := ih (pos + 1) p h2
      omega

lemma occAux_sorted (q s : List Char) :
    ∀ pos, List.Pairwise (· < ·) (occAux q s pos) := by
  induction s with
  | nil =>
    intro pos
    simp [occAux]
  | cons c rest ih =>
    intro pos
    simp only [occAux]
    refine List.pairwise_append.mpr ⟨?_, ih (pos + 1), ?_⟩
    · split <;> simp
    · intro a ha b hb
      have hb' := occAux_lb q rest (pos + 1) b hb
      by_cases hpre : q.isPrefixOf (c :: rest) <;> simp [hpre] at ha
      omega

lemma nonOverlapSel_subset (qlen : Nat) (ps : List Nat) :
    ∀ lastEnd, ∀ p ∈ nonOverlapSel qlen ps lastEnd, p ∈ ps := by
  induction ps with
  | nil =>
    intro le p hp
    simp [nonOverlapSel] at hp
  | cons p0 ps ih =>
    intro le p hp
    simp only [nonOverlapSel] at hp
    by_cases hlt : p0 < le
    · rw [if_pos hlt] at hp
      exact List.mem_cons_of_mem _ (ih le p hp)
    · rw [if_neg hlt] at hp
      rcases List.mem_cons.mp hp with rfl | h
      · exact List.mem_cons_self _ _
      · exact List.mem_cons_of_mem _ (ih (p0 + qlen) p h)

lemma nonOverlapSel_lb (qlen : Nat) (ps : List Nat) :
    ∀ lastEnd, ∀ p ∈ nonOverlapSel qlen ps lastEnd, lastEnd ≤ p := by
  induction ps with
  | nil =>
    intro le p hp
    simp [nonOverlapSel] at hp
  | cons p0 ps ih =>
    intro le p hp
    simp only [nonOverlapSel] at hp
    by_cases hlt : p0 < le
    · rw [if_pos hlt] at hp
      exact ih le p hp
    · rw [if_neg hlt] at hp
      rcases List.mem_cons.mp hp with rfl | h
      · omega
      · have := ih (p0 + qlen) p h
        omega

lemma nonOverlapSel_chain (qlen : Nat) (ps : List Nat) :
    ∀ lastEnd, List.Chain' (fun a b => a + qlen ≤ b) (nonOverlapSel qlen ps lastEnd) := by
  induction ps with
  | nil =>
    intro le
    simp [nonOverlapSel]
  | cons p0 ps ih =>
    intro le
    simp only [nonOverlapSel]
    by_cases hlt : p0 < le
    · rw [if_pos hlt]
      exact ih le
    · rw [if_neg hlt]
      refine List.chain'_cons'.mpr ⟨?_, ih (p0 + qlen)⟩
      intro b hb
      exact nonOverlapSel_lb qlen ps (p0 + qlen) b (List.mem_of_mem_head? hb)

lemma nonOverlapSel_covers (qlen : Nat) (hq : 0 < qlen) (ps : List Nat) :
    List.Pairwise (· < ·) ps → ∀ lastEnd p, p ∈ ps → lastEnd ≤ p →
      ∃ s ∈ nonOverlapSel qlen ps lastEnd, s ≤ p ∧ p < s + qlen := by
  induction ps with
  | nil =>
    intro _ le p hp
    simp at hp
  | cons p0 ps ih =>
    intro hpw le p hp hle
    obtain ⟨hhead, htail⟩ := List.pairwise_cons.mp hpw
    simp only [nonOverlapSel]
    by_cases hlt : p0 < le
    · rw [if_pos hlt]
      rcases List.mem_cons.mp hp with rfl | hmem
      · omega
      · exact ih htail le p hmem hle
    · rw [if_neg hlt]
      rcases List.mem_cons.mp hp with rfl | hmem
      · exact ⟨p, List.mem_cons_self _ _, le_refl _, by omega⟩
      · have hp0lt : p0 < p := hhead p hmem
        by_cases hcov : p < p0 + qlen
        · exact ⟨p0, List.mem_cons_self _ _, by omega, hcov⟩
        · obtain ⟨s, hs, h1, h2⟩ := ih htail (p0 + qlen) p hmem (by omega)
          exact ⟨s, List.mem_cons_of_mem _ hs, h1, h2⟩

lemma matchIndices_occ (q line : List Char) (hq : q ≠ []) :
    ∀ s ∈ matchIndices q line, q.isPrefixOf (List.drop s line) = true := by
  intro s hs
  have hmem := nonOverlapSel_subset q.length (occAux q line 0) 0 s hs
  have h := (mem_occAux q hq line 0 s).mp hmem
  simpa using h.2

lemma matchIndices_chain (q line : List Char) :
    List.Chain' (fun a b => a + q.length ≤ b) (matchIndices q line) :=
  nonOverlapSel_chain _ _ _

lemma matchIndices_covers (q line : List Char) (hq : q ≠ []) (p : Nat)
    (hpre : q.isPrefixOf (List.drop p line) = true) :
    ∃ s ∈ matchIndices q line, s ≤ p ∧ p < s + q.length := by
  have hplen : 0 < q.length := List.length_pos.mpr hq
  have hmem : p ∈ occAux q line 0 :=
    (mem_occAux q hq line 0 p).mpr ⟨Nat.zero_le _, by simpa using hpre⟩
  exact nonOverlapSel_covers q.length hplen _ (occAux_sorted q line 0) 0 p hmem (Nat.zero_le _)

lemma matchIndices_pairwise (q line : List Char) :
    List.Pairwise (fun a b => a + q.length ≤ b) (matchIndices q line) := by
  haveI : IsTrans Nat (fun a b => a + q.length ≤ b) := ⟨fun a b c h1 h2 => by omega⟩
  exact List.chain'_iff_pairwise.mp (matchIndices_chain q line)

lemma computeMatchesGo_line_lb (q : List Char) (ls : List (List Char)) :
    ∀ i, ∀ m ∈ computeMatchesGo q i ls, i ≤ m.1 := by
  induction ls with
  | nil =>
    intro i m hm
    simp [computeMatchesGo] at hm
  | cons l ls ih =>
    intro i m hm
    simp only [computeMatchesGo] at hm
    rcases List.mem_append.mp hm with h1 | h2
    · obtain ⟨s, hs, rfl⟩ := List.mem_map.mp h1
      exact le_refl i
    · have := ih (i + 1) m h2
      omega

lemma computeMatchesGo_pairwise (q : List Char) (ls : List (List Char)) :
    ∀ i, List.Pairwise matchOrder (computeMatchesGo q i ls) := by
  induction ls with
  | nil =>
    intro i
    simp [computeMatchesGo]
  | cons l ls ih =>
    intro i
    simp only [computeMatchesGo]
    refine List.pairwise_append.mpr ⟨?_, ih (i + 1), ?_⟩
    · rw [List.pairwise_map]
      refine (matchIndices_pairwise q l).imp ?_
      intro a b hab
      exact Or.inr ⟨rfl, hab⟩
    · intro m1 h1 m2 h2
      obtain ⟨s, hs, rfl⟩ := List.mem_map.mp h1
      have h2' := computeMatchesGo_line_lb q ls (i + 1) m2 h2
      exact Or.inl (lt_of_lt_of_le (Nat.lt_succ_self i) h2')

lemma computeMatchesGo_valid (q : List Char) (hq : q ≠ []) (ls : List (List Char)) :
    ∀ i, ∀ m ∈ computeMatchesGo q i ls,
      ∃ l, ls[m.1 - i]? = some l ∧ m.2.2 = m.2.1 + q.length ∧
        q.isPrefixOf (List.drop m.2.1 l) = true := by
  induction ls with
  | nil =>
    intro i m hm
    simp [computeMatchesGo] at hm
  | cons l ls ih =>
    intro i m hm
    simp only [computeMatchesGo] at hm
    rcases List.mem_append.mp hm with h1 | h2
    · obtain ⟨s, hs, rfl⟩ := List.mem_map.mp h1
      refine ⟨l, ?_, rfl, matchIndices_occ q l hq s hs⟩
      simp
    · obtain ⟨l', hl', h2', h3'⟩ := ih (i + 1) m h2
      have hge := computeMatchesGo_line_lb q ls (i + 1) m h2
      refine ⟨l', ?_, h2', h3'⟩
      have hd : m.1 - i = (m.1 - (i + 1)) + 1 := by omega
      rw [hd, List.getElem?_cons_succ]
      exact hl'

lemma computeMatchesGo_covers (q : List Char) (hq : q ≠ []) (ls : List (List Char)) :
    ∀ i j l p, ls[j]? = some l → q.isPrefixOf (List.drop p l) = true →
      ∃ m ∈ computeMatchesGo q i ls, m.1 = i + j ∧ m.2.1 ≤ p ∧ p < m.2.2 := by
  induction ls with
  | nil =>
    intro i j l p hl
    simp at hl
  | cons l0 ls ih =>
    intro i j l p hl hpre
    cases j with
    | zero =>
      rw [List.getElem?_cons_zero] at hl
      injection hl with hl
      subst hl
      obtain ⟨s, hs, h1, h2⟩ := matchIndices_covers q l0 hq p hpre
      refine ⟨(i, s, s + q.length), ?_, by simp, h1, h2⟩
      simp only [computeMatchesGo]
      exact List.mem_append.mpr (Or.inl (List.mem_map.mpr ⟨s, hs, rfl⟩))
    | succ j =>
      rw [List.getElem?_cons_succ] at hl
      obtain ⟨m, hm, hml, h1, h2⟩ := ih (i + 1) j l p hl hpre
      refine ⟨m, ?_, by omega, h1, h2⟩
      simp only [computeMatchesGo]
      exact List.mem_append.mpr (Or.inr hm)

/-- C4: for every state, search recomputation yields matches that are
pairwise ordered by `(line_index, start_offset)` and non-overlapping
within a line; every match points into an existing line, has positive
width, and its slice reproduces the query verbatim; every occurrence of a
non-empty query in any stored line overlaps some recorded match on that
line (the recorded set is the leftmost non-overlapping one); and the
empty query yields an empty match list. -/
theorem search_recompute_correct (a : App) :
    (a.search_query = [] → (a.update_search).«matches» = []) ∧
    List.Pairwise matchOrder (a.update_search).«matches» ∧
    (∀ m ∈ (a.update_search).«matches»,
      ∃ l, a.lines[m.1]? = some l ∧ m.2.1 < m.2.2 ∧
        slice l m.2.1 m.2.2 = a.search_query) ∧
    (∀ j l p, a.lines[j]? = some l → a.search_query ≠ [] →
      a.search_query.isPrefixOf (List.drop p l) = true →
      ∃ m ∈ (a.update_search).«matches», m.1 = j ∧ m.2.1 ≤ p ∧ p < m.2.2) := by
  by_cases hq : a.search_query.isEmpty
  · have hm : (a.update_search).«matches» = [] := by
      simp [App.update_search, hq]
    refine ⟨fun _ => hm, ?_, ?_, ?_⟩
    · rw [hm]
      exact List.Pairwise.nil
    · intro m hmem
      rw [hm] at hmem
      simp at hmem
    · intro j l p _ hne _
      exact absurd (List.isEmpty_iff.mp hq) hne
  · have hne : a.search_query ≠ [] := fun h => by simp [h] at hq
    have hm : (a.update_search).«matches» = computeMatchesGo a.search_query 0 a.lines := by
      simp [App.update_search, hq, computeMatches]
    rw [hm]
    refine ⟨fun h => absurd h hne, computeMatchesGo_pairwise _ _ 0, ?_, ?_⟩
    · intro m hmem
      obtain ⟨l, hl, h2, h3⟩ := computeMatchesGo_valid _ hne _ 0 m hmem
      rw [Nat.sub_zero] at hl
      have hlp : 0 < a.search_query.length := List.length_pos.mpr hne
      refine ⟨l, hl, by omega, ?_⟩
      have hq' : a.search_query <+: List.drop m.2.1 l := (isPrefixOf_eq_true _ _).mp h3
      have ht := List.prefix_iff_eq_take.mp hq'
      rw [slice, h2, Nat.add_sub_cancel_left]
      exact ht.symm
    · intro j l p hl hne' hpre
      obtain ⟨m, hmem, h1, h2, h3⟩ := computeMatchesGo_covers _ hne _ 0 j l p hl hpre
      exact ⟨m, hmem, by omega, h2, h3⟩

/-- Witness for C4: in line `"aba"` with query `"a"`, the occurrence at
position 2 is covered by a recorded match on line 0. -/
theorem search_recompute_correct_witness :
    ∃ m ∈ (App.update_search { App.new with
        lines := [toL "aba"]
        search_query := toL "a" }).«matches»,
      m.1 = 0 ∧ m.2.1 ≤ 2 ∧ 2 < m.2.2 :=
  (search_recompute_correct { App.new with
      lines := [toL "aba"]
      search_query := toL "a" }).2.2.2 0 (toL "aba") 2 rfl (by decide) (by decide)


end Carve
